import Mathlib

/-!
# Shallow embedding of qc.rs `arbitrary.rs`

This file embeds the generators of graydon/qc.rs (`src/arbitrary.rs`,
Rust 0.7 era) in Lean 4 and proves properties of them.

Modelling conventions:

* The task-local random number generator is modelled by explicit state
  passing: a random-source capability is a function `σ → α × σ` for a
  state type `σ`.  A size-aware generator (`Arbitrary::arbitrary`) is a
  function `ℕ → σ → α × σ`.
* The `Exp1` sample drawn by `small_n` (`std::rand::random()` at type
  `Exp1`, a positive real) is modelled as an explicit rational parameter
  `f : ℚ`.
* The Rust `f64 as uint` cast on the (nonnegative) products that occur here
  truncates toward zero, saturating at `0` for negative inputs; it is
  modelled by `f64_as_uint` below.  Note that in Rust 0.7 the `as`
  operator bound more loosely than `*`, so the expression
  `(*f) * (size as f64) as uint` in `small_n` casts the whole product.
* The Rust `~str` values are modelled as Lean `String`s, and `~str::len()`
  (UTF-8 byte length) by `strLen` below.
-/

namespace QcRs

/-- Rust `f64 as uint` for the values occurring in `small_n`: truncation
toward zero, saturating at `0` for negative inputs.  (For `x ≥ 0`,
truncation toward zero coincides with the floor; for `x < 0` both the
truncation and `Int.toNat ∘ Int.floor` yield `0`.) -/
def f64_as_uint (x : ℚ) : ℕ :=
  (Int.floor x).toNat

/-- Rust `fn small_n(size: uint) -> uint` from `arbitrary.rs`:
draw `f : Exp1`, compute `n = ((*f) * (size as f64)) as uint`, and return
`n.min(&(16 * size))`.  The `Exp1` sample is the explicit parameter `f`. -/
def small_n (f : ℚ) (size : ℕ) : ℕ :=
  let n := f64_as_uint (f * (size : ℚ))
  min n (16 * size)

/-- Rust `pub struct SmallN(uint)` — a small number `≥ 0`. -/
structure SmallN where
  val : ℕ
  deriving DecidableEq

/-- Rust `impl Arbitrary for SmallN`: `SmallN(small_n(sz))`. -/
def SmallN.arbitrary (f : ℚ) (sz : ℕ) : SmallN :=
  ⟨small_n f sz⟩

/-- Modelled from the spec (Size Policy, §4.2): "Given `size`, draw a
sample from a continuous exponential distribution with rate 1, multiply
by `size` cast to a real number, truncate to an integer, then clamp the
result to at most `16 * size`."  The sample is the parameter `f`; the
truncation of the nonnegative product is its floor, mapped to `ℕ`. -/
def small_n_spec (f : ℚ) (size : ℕ) : ℕ :=
  let product : ℚ := f * (size : ℚ)
  let truncated : ℕ := (Int.floor product).toNat
  if truncated ≤ 16 * size then truncated else 16 * size

/-- C1.  For every exponential sample and every size, the bounded
count `small_n` lies in `[0, 16*size]` (the lower bound is inherent in
`ℕ`); for `size = 0` it is `0`, and consequently `SmallN::arbitrary(0)`
is always `SmallN(0)`. -/
theorem small_n_bound (f : ℚ) (size : ℕ) :
    small_n f size ≤ 16 * size ∧ small_n f 0 = 0 ∧
      SmallN.arbitrary f 0 = ⟨0⟩ := by
  refine ⟨min_le_right _ _, ?_, ?_⟩
  · simp [small_n]
  · simp [SmallN.arbitrary, small_n]

/-- C2.  `small_n` agrees with the description in the spec of the size
policy: multiply the exponential sample by `size` cast to a real number,
truncate the product to an integer, and clamp the result to at most
`16 * size`. -/
theorem small_n_eq_spec (f : ℚ) (size : ℕ) :
    small_n f size = small_n_spec f size := by
  simp [small_n, small_n_spec, f64_as_uint, Nat.min_def]

/-- C10.  For a fixed (nonnegative) value of the exponential sample,
`small_n` is monotone nondecreasing in `size`. -/
theorem small_n_mono (f : ℚ) (hf : 0 ≤ f) (s1 s2 : ℕ) (h : s1 ≤ s2) :
    small_n f s1 ≤ small_n f s2 := by
  unfold small_n f64_as_uint
  refine min_le_min ?_ (by omega)
  have hmul : f * (s1 : ℚ) ≤ f * (s2 : ℚ) := by
    apply mul_le_mul_of_nonneg_left _ hf
    exact_mod_cast h
  exact Int.toNat_le_toNat (Int.floor_le_floor hmul)

/-- Witness for `small_n_mono` at `f = 1`, `s1 = 2`, `s2 = 3`. -/
theorem small_n_mono_witness :
    (0 ≤ (1 : ℚ)) ∧ (2 ≤ 3) ∧ small_n 1 2 ≤ small_n 1 3 :=
  ⟨by norm_num, by norm_num, small_n_mono 1 (by norm_num) 2 3 (by norm_num)⟩

/-! ## The `Iter` helper

`priv struct Iter<T> { count: uint, size: uint }` produces `count` values
of `T`, each via `arbitrary(size)`.  The element generator is the
explicit parameter `g : ℕ → σ → α × σ` (size, then rng state). -/

/-- Rust `priv struct Iter<T>`. -/
structure Iter where
  count : ℕ
  size : ℕ

/-- Rust `fn arbiter<T: Arbitrary>(count: uint, sz: uint) -> Iter<T>`. -/
def arbiter (count sz : ℕ) : Iter :=
  ⟨count, sz⟩

/-- Rust `Iterator::next` for `Iter<T>`: while `count > 0`, decrement it and
yield `Some(arbitrary(self.size))`; afterwards yield `None`. -/
def Iter.next {σ α : Type} (g : ℕ → σ → α × σ) (it : Iter) (s : σ) :
    Option α × Iter × σ :=
  if it.count > 0 then
    let (x, s1) := g it.size s
    (some x, ⟨it.count - 1, it.size⟩, s1)
  else
    (none, it, s)

/-- The recursion underlying `.collect()` on an `Iter` with `c` remaining
elements at size `sz`. -/
def collectAux {σ α : Type} (g : ℕ → σ → α × σ) (sz : ℕ) : ℕ → σ → List α × σ
  | 0, s => ([], s)
  | c + 1, s =>
    let (x, s1) := g sz s
    let (xs, s2) := collectAux g sz c s1
    (x :: xs, s2)

/-- Rust `.collect()` on an `Iter<T>`: call `next` until it returns `None`,
gathering the yielded elements in order. -/
def Iter.collect {σ α : Type} (g : ℕ → σ → α × σ) (it : Iter) (s : σ) :
    List α × σ :=
  collectAux g it.size it.count s

/-- Rust `impl Arbitrary for ~[T]`: `arbiter::<T>(small_n(sz), sz).collect()`. -/
def vec_arbitrary {σ α : Type} (g : ℕ → σ → α × σ) (f : ℚ) (sz : ℕ) (s : σ) :
    List α × σ :=
  Iter.collect g (arbiter (small_n f sz) sz) s

/-- Rust `pub struct NonEmptyVec<T>(~[T])` — like `~[T]` but never empty. -/
structure NonEmptyVec (α : Type) where
  val : List α

/-- Rust `impl Arbitrary for NonEmptyVec<T>`: `n = 1 + small_n(sz)`, then
`NonEmptyVec(arbiter::<T>(n, sz).collect())`. -/
def NonEmptyVec.arbitrary {σ α : Type} (g : ℕ → σ → α × σ) (f : ℚ) (sz : ℕ)
    (s : σ) : NonEmptyVec α × σ :=
  let n := 1 + small_n f sz
  let (xs, s1) := Iter.collect g (arbiter n sz) s
  (⟨xs⟩, s1)

/-- Rust `impl Arbitrary for Option<T>`: flip `std::rand::random::<bool>()`
(modelled by the capability `rb`); on `true` wrap `arbitrary(sz)` in
`Some`, on `false` return `None` without generating anything. -/
def option_arbitrary {σ α : Type} (rb : σ → Bool × σ) (g : ℕ → σ → α × σ)
    (sz : ℕ) (s : σ) : Option α × σ :=
  let (b, s1) := rb s
  if b then
    let (x, s2) := g sz s1
    (some x, s2)
  else
    (none, s1)

/-- Rust `pub struct Random<T>(T)` — reuse an existing `Rand` instance. -/
structure Random (α : Type) where
  val : α

/-- Body of the `arb_rand!` macro (used for `i8`, `int`, `uint`, `float`,
`bool`, `char` and `()`): `fn arbitrary(_: uint) { std::rand::random() }`.
The `Rand` capability for the type is the parameter `random`. -/
def arb_rand {σ α : Type} (random : σ → α × σ) (_sz : ℕ) (s : σ) : α × σ :=
  random s

/-- Rust `impl Arbitrary for u8` (written out separately in the source, with
the same body as `arb_rand!`). -/
def u8_arbitrary {σ : Type} (random : σ → ℕ × σ) (_sz : ℕ) (s : σ) : ℕ × σ :=
  random s

/-- Rust `impl<T: Rand> Arbitrary for Random<T>`:
`Random(std::rand::random())`, ignoring the size. -/
def Random.arbitrary {σ α : Type} (random : σ → α × σ) (_sz : ℕ) (s : σ) :
    Random α × σ :=
  let (x, s1) := random s
  (⟨x⟩, s1)

/-! ## Lemmas about `collect` -/

/-- The function `collectAux` produces exactly as many elements as requested. -/
theorem collectAux_length {σ α : Type} (g : ℕ → σ → α × σ) (sz : ℕ) :
    ∀ (c : ℕ) (s : σ), (collectAux g sz c s).1.length = c := by
  intro c
  induction c with
  | zero => intro s; rfl
  | succ c ih =>
    intro s
    simp only [collectAux]
    exact congrArg Nat.succ (ih _)

/-- The function `collectAux` consults the element generator only at the fixed size
`sz`: generators agreeing at `sz` produce identical output. -/
theorem collectAux_congr {σ α : Type} (g g' : ℕ → σ → α × σ) (sz : ℕ)
    (hg : ∀ st, g sz st = g' sz st) :
    ∀ (c : ℕ) (s : σ), collectAux g sz c s = collectAux g' sz c s := by
  intro c
  induction c with
  | zero => intro s; rfl
  | succ c ih =>
    intro s
    simp only [collectAux, hg, ih]

/-- C5.  `~[T]::arbitrary(sz)` first draws `n = small_n(sz)` and then
collects exactly `n` elements, each generated at the same size `sz` (any
generator agreeing at `sz` yields the same result). -/
theorem vec_arbitrary_spec {σ α : Type} (g g' : ℕ → σ → α × σ) (f : ℚ)
    (sz : ℕ) (s : σ) (hg : ∀ st, g sz st = g' sz st) :
    vec_arbitrary g f sz s = Iter.collect g (arbiter (small_n f sz) sz) s ∧
      (vec_arbitrary g f sz s).1.length = small_n f sz ∧
      vec_arbitrary g f sz s = vec_arbitrary g' f sz s :=
  ⟨rfl, collectAux_length g sz _ s,
    collectAux_congr g g' sz hg _ s⟩

/-- A sample element generator used by the witnesses: at size `sz` and
state `s` it produces the value `sz + s` and advances the state. -/
def demoGen (sz s : ℕ) : ℕ × ℕ :=
  (sz + s, s + 1)

/-- Witness for `vec_arbitrary_spec` with `g = g' = demoGen`, `f = 0`,
`sz = 2`, `s = 0`. -/
theorem vec_arbitrary_spec_witness :
    (∀ st, demoGen 2 st = demoGen 2 st) ∧
      (vec_arbitrary demoGen 0 2 0 =
          Iter.collect demoGen (arbiter (small_n 0 2) 2) 0 ∧
        (vec_arbitrary demoGen 0 2 0).1.length = small_n 0 2 ∧
        vec_arbitrary demoGen 0 2 0 = vec_arbitrary demoGen 0 2 0) :=
  ⟨fun _ => rfl, vec_arbitrary_spec demoGen demoGen 0 2 0 (fun _ => rfl)⟩

/-- C4.  `NonEmptyVec<T>::arbitrary(sz)` produces exactly
`1 + small_n(sz)` elements, each generated at the same size `sz`, so its
length is always at least `1`. -/
theorem nonEmptyVec_arbitrary_spec {σ α : Type} (g g' : ℕ → σ → α × σ)
    (f : ℚ) (sz : ℕ) (s : σ) (hg : ∀ st, g sz st = g' sz st) :
    (NonEmptyVec.arbitrary g f sz s).1.val.length = 1 + small_n f sz ∧
      1 ≤ (NonEmptyVec.arbitrary g f sz s).1.val.length ∧
      NonEmptyVec.arbitrary g f sz s = NonEmptyVec.arbitrary g' f sz s := by
  have hcol : Iter.collect g (arbiter (1 + small_n f sz) sz) s =
      Iter.collect g' (arbiter (1 + small_n f sz) sz) s :=
    collectAux_congr g g' sz hg _ s
  have hlen : (Iter.collect g (arbiter (1 + small_n f sz) sz) s).1.length =
      1 + small_n f sz :=
    collectAux_length g sz _ s
  refine ⟨?_, ?_, ?_⟩
  · simpa [NonEmptyVec.arbitrary] using hlen
  · simp only [NonEmptyVec.arbitrary]
    omega
  · simp only [NonEmptyVec.arbitrary, hcol]

/-- Witness for `nonEmptyVec_arbitrary_spec` with `g = g' = demoGen`,
`f = 0`, `sz = 2`, `s = 0`. -/
theorem nonEmptyVec_arbitrary_spec_witness :
    (∀ st, demoGen 2 st = demoGen 2 st) ∧
      ((NonEmptyVec.arbitrary demoGen 0 2 0).1.val.length =
          1 + small_n 0 2 ∧
        1 ≤ (NonEmptyVec.arbitrary demoGen 0 2 0).1.val.length ∧
        NonEmptyVec.arbitrary demoGen 0 2 0 =
          NonEmptyVec.arbitrary demoGen 0 2 0) :=
  ⟨fun _ => rfl,
    nonEmptyVec_arbitrary_spec demoGen demoGen 0 2 0 (fun _ => rfl)⟩

/-- C9.  `Option<T>::arbitrary(sz)` flips one boolean from the random
source; on `true` it returns `Some` of a value generated by the inner
generator at the same size `sz` (threading the post-flip state), on
`false` it returns `None` and performs no inner generation (the state is
exactly the post-flip state). -/
theorem option_arbitrary_spec {σ α : Type} (rb : σ → Bool × σ)
    (g : ℕ → σ → α × σ) (sz : ℕ) (s : σ) :
    option_arbitrary rb g sz s =
      if (rb s).1 then
        (some (g sz (rb s).2).1, (g sz (rb s).2).2)
      else
        (none, (rb s).2) := by
  unfold option_arbitrary
  obtain ⟨b, s1⟩ := rb s
  cases b <;> simp

/-- C8.  The primitive generators produced by `arb_rand!` (for `i8`,
`int`, `uint`, `float`, `bool`, `char`, `()`), the separate `u8`
implementation, and the `Random<T>` reuse wrapper never read the size
parameter: with identical random-source state, any two sizes yield the
same value, namely the one drawn directly from the `Rand` capability. -/
theorem size_ignored {σ α : Type} (random : σ → α × σ) (randomU8 : σ → ℕ × σ)
    (sz1 sz2 : ℕ) (s : σ) :
    arb_rand random sz1 s = arb_rand random sz2 s ∧
      arb_rand random sz1 s = random s ∧
      u8_arbitrary randomU8 sz1 s = u8_arbitrary randomU8 sz2 s ∧
      Random.arbitrary random sz1 s = Random.arbitrary random sz2 s ∧
      (Random.arbitrary random sz1 s).1.val = (random s).1 := by
  refine ⟨rfl, rfl, rfl, rfl, ?_⟩
  simp [Random.arbitrary]

/-! ## The `HashMap<K, V>` generator

A `HashMap` is modelled by its entry list (order irrelevant to the
claims); `HashMap::insert` replaces the value stored under an equal key
and otherwise adds a fresh entry. -/

/-- Rust `HashMap::insert(k, v)`: overwrite the entry with an equal key in
place, or append a fresh entry. -/
def hmInsert {κ ν : Type} [DecidableEq κ] :
    List (κ × ν) → κ → ν → List (κ × ν)
  | [], k, v => [(k, v)]
  | (k0, v0) :: rest, k, v =>
    if k0 = k then (k, v) :: rest else (k0, v0) :: hmInsert rest k v

/-- The `for n.times { v.insert(arbitrary(sz), arbitrary(sz)); }` loop:
each round generates a key then a value (Rust evaluates arguments left to
right) and inserts the pair. -/
def hashMapLoop {σ κ ν : Type} [DecidableEq κ] (genK : ℕ → σ → κ × σ)
    (genV : ℕ → σ → ν × σ) (sz : ℕ) :
    ℕ → List (κ × ν) → σ → List (κ × ν) × σ
  | 0, m, s => (m, s)
  | n + 1, m, s =>
    let (k, s1) := genK sz s
    let (v, s2) := genV sz s1
    hashMapLoop genK genV sz n (hmInsert m k v) s2

/-- Rust `impl Arbitrary for HashMap<K, V>`: `n = small_n(sz)`, then `n`
insertions of generated pairs into an initially empty map. -/
def hashMap_arbitrary {σ κ ν : Type} [DecidableEq κ] (genK : ℕ → σ → κ × σ)
    (genV : ℕ → σ → ν × σ) (f : ℚ) (sz : ℕ) (s : σ) : List (κ × ν) × σ :=
  hashMapLoop genK genV sz (small_n f sz) [] s

/-- The keys after an insertion: unchanged when the key was present,
extended by the new key otherwise. -/
theorem hmInsert_keys {κ ν : Type} [DecidableEq κ] (m : List (κ × ν))
    (k : κ) (v : ν) :
    (hmInsert m k v).map Prod.fst =
      if k ∈ m.map Prod.fst then m.map Prod.fst
      else m.map Prod.fst ++ [k] := by
  induction m with
  | nil => simp [hmInsert]
  | cons kv rest ih =>
    obtain ⟨k0, v0⟩ := kv
    by_cases h : k0 = k
    · subst h
      simp [hmInsert]
    · have h' : ¬k = k0 := fun hh => h hh.symm
      simp only [hmInsert, if_neg h, List.map_cons, ih, List.mem_cons, h',
        false_or]
      by_cases hmem : k ∈ rest.map Prod.fst
      · simp [hmem]
      · simp [hmem]

/-- Insertion preserves key uniqueness. -/
theorem hmInsert_nodup {κ ν : Type} [DecidableEq κ] (m : List (κ × ν))
    (k : κ) (v : ν) (hm : (m.map Prod.fst).Nodup) :
    ((hmInsert m k v).map Prod.fst).Nodup := by
  rw [hmInsert_keys]
  by_cases hmem : k ∈ m.map Prod.fst
  · simpa [hmem] using hm
  · simp only [hmem, if_neg, ite_false]
    refine List.Nodup.append hm (List.nodup_singleton k) ?_
    intro a ha hb
    simp only [List.mem_singleton] at hb
    exact hmem (hb ▸ ha)

/-- Insertion grows the entry count by at most one. -/
theorem hmInsert_length_le {κ ν : Type} [DecidableEq κ] (m : List (κ × ν))
    (k : κ) (v : ν) :
    (hmInsert m k v).length ≤ m.length + 1 := by
  induction m with
  | nil => simp [hmInsert]
  | cons kv rest ih =>
    obtain ⟨k0, v0⟩ := kv
    by_cases h : k0 = k
    · simp [hmInsert, h]
    · simp only [hmInsert, if_neg h, List.length_cons]
      omega

/-- Invariant of the insertion loop: key uniqueness is preserved and the
entry count grows by at most the number of rounds. -/
theorem hashMapLoop_invariant {σ κ ν : Type} [DecidableEq κ]
    (genK : ℕ → σ → κ × σ) (genV : ℕ → σ → ν × σ) (sz : ℕ) :
    ∀ (n : ℕ) (m : List (κ × ν)) (s : σ), (m.map Prod.fst).Nodup →
      (((hashMapLoop genK genV sz n m s).1.map Prod.fst).Nodup ∧
        (hashMapLoop genK genV sz n m s).1.length ≤ m.length + n) := by
  intro n
  induction n with
  | zero =>
    intro m s hm
    exact ⟨hm, by simp [hashMapLoop]⟩
  | succ n ih =>
    intro m s hm
    simp only [hashMapLoop]
    have hstep := ih (hmInsert m (genK sz s).1 (genV sz (genK sz s).2).1)
      (genV sz (genK sz s).2).2
      (hmInsert_nodup m _ _ hm)
    have hlen := hmInsert_length_le m (genK sz s).1 (genV sz (genK sz s).2).1
    exact ⟨hstep.1, by omega⟩

/-- C3.  The `HashMap` generator performs exactly `n = small_n(sz)`
insertions starting from the empty map; in the result no two entries
share an equal key, and the entry count is at most `n`, hence at most
`16 * sz`. -/
theorem hashMap_arbitrary_spec {σ κ ν : Type} [DecidableEq κ]
    (genK : ℕ → σ → κ × σ) (genV : ℕ → σ → ν × σ) (f : ℚ) (sz : ℕ) (s : σ) :
    hashMap_arbitrary genK genV f sz s =
        hashMapLoop genK genV sz (small_n f sz) [] s ∧
      ((hashMap_arbitrary genK genV f sz s).1.map Prod.fst).Nodup ∧
      (hashMap_arbitrary genK genV f sz s).1.length ≤ small_n f sz ∧
      (hashMap_arbitrary genK genV f sz s).1.length ≤ 16 * sz := by
  have h := hashMapLoop_invariant genK genV sz (small_n f sz) [] s (by simp)
  have hbound : small_n f sz ≤ 16 * sz := min_le_right _ _
  have hlen : (hashMap_arbitrary genK genV f sz s).1.length ≤ small_n f sz := by
    simpa [hashMap_arbitrary] using h.2
  exact ⟨rfl, h.1, hlen, le_trans hlen hbound⟩

/-! ## The `Unicode` sample-corpus string generator

`gen_unicode_str` repeatedly appends a uniformly chosen element of the
corpus word list (extended by the separator tokens `" "`, `" "`, `"\n"`)
until the accumulated UTF-8 byte length reaches the requested bound.  The
`choose` calls of the rng are modelled by a stream `cs : ℕ → ℕ` of choice
indices, reduced modulo the list length. -/

/-- Rust `~str::len()`: the UTF-8 byte length of a string. -/
def strLen (s : String) : ℕ :=
  (s.data.map Char.utf8Size).sum

/-- The fixed multi-script sample text embedded in `gen_unicode_str`
(the `\` at the end of the first source line is a Rust line continuation;
the second line break is part of the literal). -/
def sampleText : String :=
  "a b c 0 $ ⇌ [ˈʏpsilɔn] \\ \" ‚dsch‘ „füh“      ‡ € ⁿ ２ � 🈘\nἀπὸ состоится ทรงนับถือขันทีเป็นที่พึ่ง Hello world Καλημέρα κόσμε コンニチハ"

/-- Accumulator recursion behind `word_iter()`: split a character list
into maximal whitespace-free words. -/
def wordIterGo : List Char → List Char → List (List Char)
  | [], acc => if acc.isEmpty then [] else [acc.reverse]
  | c :: rest, acc =>
    if c.isWhitespace then
      if acc.isEmpty then wordIterGo rest []
      else acc.reverse :: wordIterGo rest []
    else
      wordIterGo rest (c :: acc)

/-- Rust `text.word_iter().collect()`: the whitespace-delimited words of a
string, in order. -/
def word_iter (s : String) : List String :=
  (wordIterGo s.data []).map (fun w => ⟨w⟩)

/-- The choice list of `gen_unicode_str`: the corpus words followed by
`words.push_all([" ", " ", "\n"])`. -/
def corpusWords : List String :=
  word_iter sampleText ++ [" ", " ", "\n"]

/-- Model of `rng.choose(words)` for the `i`-th draw: pick the element of
`corpusWords` selected by the choice stream (index reduced modulo the
list length). -/
def corpusChoose (i : ℕ) : String :=
  corpusWords.getD (i % corpusWords.length) ""

theorem strLen_append (a b : String) :
    strLen (a ++ b) = strLen a + strLen b := by
  simp [strLen]

/-- Every entry of the extended corpus list — each word and each
separator token — is non-empty (has positive byte length). -/
theorem corpusWords_pos : ∀ w ∈ corpusWords, 0 < strLen w := by decide

theorem corpusWords_length_pos : 0 < corpusWords.length := by decide

/-- Every possible choice of `rng.choose(words)` is non-empty. -/
theorem corpusChoose_pos (i : ℕ) : 0 < strLen (corpusChoose i) := by
  have hm : i % corpusWords.length < corpusWords.length :=
    Nat.mod_lt _ corpusWords_length_pos
  rw [corpusChoose, List.getD_eq_getElem?_getD, List.getElem?_eq_getElem hm]
  exact corpusWords_pos _ (List.getElem_mem hm)

/-- The `while res.len() < len { res += rng.choose(words); }` loop of
`gen_unicode_str`, with `t` counting the draws made so far.  Termination:
every choice has positive byte length, so `len - strLen res` strictly
decreases. -/
def gen_unicode_loop (cs : ℕ → ℕ) (len : ℕ) (t : ℕ) (res : String) :
    String :=
  if strLen res < len then
    gen_unicode_loop cs len (t + 1) (res ++ corpusChoose (cs t))
  else res
termination_by len - strLen res
decreasing_by
  have hw := corpusChoose_pos (cs t)
  rw [strLen_append]
  omega

/-- Rust `fn gen_unicode_str<R: Rng>(rng, len)`: starting from the empty
string, append corpus choices while the length is below `len`. -/
def gen_unicode_str (cs : ℕ → ℕ) (len : ℕ) : String :=
  gen_unicode_loop cs len 0 ""

/-- Rust `pub struct Unicode(~str)`. -/
structure Unicode where
  val : String

/-- Rust `impl Arbitrary for Unicode`: `n = small_n(sz)`, then
`Unicode(gen_unicode_str(rng, n))`. -/
def Unicode.arbitrary (cs : ℕ → ℕ) (f : ℚ) (sz : ℕ) : Unicode :=
  ⟨gen_unicode_str cs (small_n f sz)⟩

/-- On exit the accumulated length has reached the bound. -/
theorem gen_unicode_loop_ge (cs : ℕ → ℕ) (len t : ℕ) (res : String) :
    len ≤ strLen (gen_unicode_loop cs len t res) := by
  by_cases h : strLen res < len
  · rw [gen_unicode_loop, if_pos h]
    exact gen_unicode_loop_ge cs len (t + 1) (res ++ corpusChoose (cs t))
  · rw [gen_unicode_loop, if_neg h]
    omega
termination_by len - strLen res
decreasing_by
  have hw := corpusChoose_pos (cs t)
  rw [strLen_append]
  omega

/-- C6.  `gen_unicode_str` keeps appending uniformly chosen corpus
entries until the accumulated length is at least the requested `n`: the
returned string has byte length `≥ n`, for `n = 0` it is the empty
string, and accordingly `Unicode::arbitrary(sz)` (which requests
`n = small_n(sz)`) yields a string of byte length `≥ small_n(sz)`. -/
theorem gen_unicode_str_spec (cs : ℕ → ℕ) (len : ℕ) (f : ℚ) (sz : ℕ) :
    len ≤ strLen (gen_unicode_str cs len) ∧
      gen_unicode_str cs 0 = "" ∧
      small_n f sz ≤ strLen (Unicode.arbitrary cs f sz).val := by
  refine ⟨gen_unicode_loop_ge cs len 0 "", ?_, gen_unicode_loop_ge cs _ 0 ""⟩
  rw [gen_unicode_str, gen_unicode_loop]
  simp

/-- Fuel-bounded version of the `gen_unicode_str` loop: `none` means the
fuel ran out with the condition still true. -/
def gen_unicode_fuel (cs : ℕ → ℕ) (len : ℕ) :
    ℕ → ℕ → String → Option String
  | 0, _, res => if strLen res < len then none else some res
  | fuel + 1, t, res =>
    if strLen res < len then
      gen_unicode_fuel cs len fuel (t + 1) (res ++ corpusChoose (cs t))
    else some res

/-- With at least `len - strLen res` units of fuel the bounded loop
completes and agrees with the total loop: each iteration appends a
non-empty word, so the length grows by at least one per step. -/
theorem gen_unicode_fuel_complete (cs : ℕ → ℕ) (len : ℕ) :
    ∀ (fuel t : ℕ) (res : String), len ≤ fuel + strLen res →
      gen_unicode_fuel cs len fuel t res =
        some (gen_unicode_loop cs len t res) := by
  intro fuel
  induction fuel with
  | zero =>
    intro t res hle
    have h : ¬strLen res < len := by omega
    rw [gen_unicode_fuel, if_neg h, gen_unicode_loop, if_neg h]
  | succ fuel ih =>
    intro t res hle
    by_cases h : strLen res < len
    · rw [gen_unicode_fuel, if_pos h, gen_unicode_loop, if_pos h]
      apply ih
      have hw := corpusChoose_pos (cs t)
      rw [strLen_append]
      omega
    · rw [gen_unicode_fuel, if_neg h, gen_unicode_loop, if_neg h]

/-- C7.  Generation terminates: every candidate word or separator the
`gen_unicode_str` loop can choose is non-empty, so each iteration
strictly increases the accumulated length, and for every target length
`len` the loop finishes within `len` iterations (the fuel-bounded loop
with fuel `len` returns `some` and agrees with the total function). -/
theorem gen_unicode_terminates (cs : ℕ → ℕ) (len i : ℕ) :
    0 < strLen (corpusChoose i) ∧
      gen_unicode_fuel cs len len 0 "" = some (gen_unicode_str cs len) ∧
      (gen_unicode_fuel cs len len 0 "").isSome = true := by
  have h : gen_unicode_fuel cs len len 0 "" =
      some (gen_unicode_loop cs len 0 "") :=
    gen_unicode_fuel_complete cs len len 0 "" (by simp)
  exact ⟨corpusChoose_pos i, h, by rw [h]; rfl⟩

end QcRs
